import Mathlib

/-!
Verification of the term-extraction logic of
`streamlit_term_definition/streamlit_demo.py`.

Python strings are embedded as Lean `String`; the Python string operations
used by the source (`split`, `strip`, `in`, indexing `[0]` / `[-1]` of a
split) are implemented here by structural recursion on the underlying
character list, so that every definition evaluates inside the kernel.
-/

namespace StreamlitDemo

/-- `isPrefixL sep l` : `sep` is a prefix of `l` (character-wise). -/
def isPrefixL : List Char → List Char → Bool
  | [], _ => true
  | _ :: _, [] => false
  | a :: as, b :: bs => a == b && isPrefixL as bs

/-- `containsSub sep l` : the character sequence `sep` occurs somewhere in `l`.
This is Python's `sep in l`. -/
def containsSub (sep : List Char) : List Char → Bool
  | [] => isPrefixL sep []
  | c :: cs => isPrefixL sep (c :: cs) || containsSub sep cs

/-- Prefix of `l` before the first occurrence of `sep` (all of `l` when `sep`
does not occur).  This is Python's `l.split(sep)[0]`. -/
def beforeFirst (sep : List Char) : List Char → List Char
  | [] => []
  | c :: cs =>
    if isPrefixL sep (c :: cs) then []
    else c :: beforeFirst sep cs

/-- Suffix of `l` after the last occurrence of `sep`, `none` when `sep` does
not occur.  Occurrences found deeper in the list are preferred. -/
def afterLastOpt (sep : List Char) : List Char → Option (List Char)
  | [] => if sep.isEmpty then some [] else none
  | c :: cs =>
    match afterLastOpt sep cs with
    | some r => some r
    | none =>
      if isPrefixL sep (c :: cs) then some ((c :: cs).drop sep.length)
      else none

/-- Suffix of `l` after the last occurrence of `sep` (all of `l` when `sep`
does not occur).  For the separators used by the source (`"Term:"`,
`"Definition:"`, `"\n"`), which cannot overlap themselves, this is Python's
`l.split(sep)[-1]`. -/
def afterLast (sep l : List Char) : List Char :=
  (afterLastOpt sep l).getD l

/-- Suffix of `l` after the first occurrence of `sep`, `none` when `sep`
does not occur. -/
def afterFirstOpt (sep : List Char) : List Char → Option (List Char)
  | [] => if sep.isEmpty then some [] else none
  | c :: cs =>
    if isPrefixL sep (c :: cs) then some ((c :: cs).drop sep.length)
    else afterFirstOpt sep cs

/-- Suffix of `l` after the first occurrence of `sep` (all of `l` when `sep`
does not occur). -/
def afterFirst (sep l : List Char) : List Char :=
  (afterFirstOpt sep l).getD l

/-- Split on the newline character: Python's `s.split("\n")`. -/
def splitLines : List Char → List (List Char)
  | [] => [[]]
  | c :: cs =>
    if c = '\n' then [] :: splitLines cs
    else
      match splitLines cs with
      | [] => [[c]]
      | h :: t => (c :: h) :: t

/-- Python's `str.strip()` whitespace test (ASCII range). -/
def isWS (c : Char) : Bool :=
  c == ' ' || c == '\t' || c == '\n' || c == '\r' || c == '\x0b' || c == '\x0c'

/-- Python's `str.strip()`: drop whitespace from both ends. -/
def trimL (l : List Char) : List Char :=
  ((l.dropWhile isWS).reverse.dropWhile isWS).reverse

/-- String-level wrapper of `containsSub`: Python's `sep in s`. -/
def sContains (sep s : String) : Bool :=
  containsSub sep.data s.data

/-- String-level wrapper of `beforeFirst`: Python's `s.split(sep)[0]`. -/
def sBeforeFirst (sep s : String) : String :=
  String.mk (beforeFirst sep.data s.data)

/-- String-level wrapper of `afterLast`: Python's `s.split(sep)[-1]` for the
self-overlap-free separators used by the source. -/
def sAfterLast (sep s : String) : String :=
  String.mk (afterLast sep.data s.data)

/-- String-level wrapper of `afterFirst`. -/
def sAfterFirst (sep s : String) : String :=
  String.mk (afterFirst sep.data s.data)

/-- String-level wrapper of `trimL`: Python's `s.strip()`. -/
def sTrim (s : String) : String :=
  String.mk (trimL s.data)

/-- String-level wrapper of `splitLines`: Python's `s.split("\n")`. -/
def sLines (s : String) : List String :=
  (splitLines s.data).map String.mk

/-!  Python `dict` (insertion-ordered, unique keys) as an association list. -/

/-- A Python `dict` with string keys and string values, as the ordered list
of its entries. -/
abbrev Dict := List (String × String)

/-- Python `d[k] = v`: overwrite the value of the first entry with key `k`
(keys of a dict built this way are unique), else append the new entry. -/
def dinsert : Dict → String → String → Dict
  | [], k, v => [(k, v)]
  | p :: d, k, v => if p.1 = k then (k, v) :: d else p :: dinsert d k v

/-- Python `d.get(k)` / `k in d`: value of the first entry with key `k`. -/
def dlookup : Dict → String → Option String
  | [], _ => none
  | p :: d, k => if p.1 = k then some p.2 else dlookup d k

/-- Dict built by inserting a list of pairs in order into the empty dict
(Python dict comprehension over the pairs). -/
def dictOf (l : List (String × String)) : Dict :=
  l.foldl (fun d p => dinsert d p.1 p.2) []

/-- Python `existing.update(incoming)`: insert every entry of `incoming`, in
order, into `existing`.  This is the merge used at
`streamlit_demo.py:200` (`st.session_state["all_terms"].update(...)`) and in
the `terms_docs.update(...)` calls of the upload tab. -/
def mergeAggregate (existing incoming : Dict) : Dict :=
  incoming.foldl (fun d p => dinsert d p.1 p.2) existing

/-!  `extract_terms` (streamlit_demo.py lines 46-76).  The LLM round trip
(`temp_index.as_query_engine(...).query(term_extract_str)`) is external; its
string answer is the input of the parsing logic embedded here. -/

/-- The line filter of `extract_terms` (lines 63-67):
`[x for x in answer.split("\n") if x and "Term:" in x and "Definition:" in x]`. -/
def retained (answer : String) : List String :=
  (sLines answer).filter fun x =>
    x != "" && sContains "Term:" x && sContains "Definition:" x

/-- The term parsed from one retained line (lines 70-71):
`x.split("Definition:")[0].split("Term:")[-1].strip()`. -/
def parseTermOf (x : String) : String :=
  sTrim (sAfterLast "Term:" (sBeforeFirst "Definition:" x))

/-- The definition parsed from one retained line (line 72):
`x.split("Definition:")[-1].strip()`. -/
def parseDefOf (x : String) : String :=
  sTrim (sAfterLast "Definition:" x)

/-- The `(term, definition)` pair parsed from one retained line. -/
def parsePair (x : String) : String × String :=
  (parseTermOf x, parseDefOf x)

/-- `extract_terms` parsing (lines 63-76): the dict comprehension
`{parseTermOf x: parseDefOf x for x in retained}`, entries inserted in line
order. -/
def extract_terms (answer : String) : Dict :=
  dictOf ((retained answer).map parsePair)

/-!  `insert_terms` (streamlit_demo.py lines 79-82) and the upload tab's
session-state actions (lines 159-202). -/

/-- The document content built for one pair (line 81):
`f"Term: {term}\nDefinition: {definition}"`. -/
def mkDoc (term definition : String) : String :=
  "Term: " ++ term ++ "\n" ++ "Definition: " ++ definition

/-- `insert_terms` (lines 79-82): one `index.insert(doc)` call per pair, in
iteration order; the index is the list of inserted document contents. -/
def insert_terms (d : Dict) (index : List String) : List String :=
  d.foldl (fun i p => i ++ [mkDoc p.1 p.2]) index

/-- `insert_terms` with a fallible collaborator `index.insert`: `ok doc`
says whether inserting `doc` succeeds.  On the first failure the Python loop
aborts with the exception; the error value carries the index at that moment
(insertions already made are kept, nothing is rolled back). -/
def insertTermsF (ok : String → Bool) :
    List (String × String) → List String → Except (List String) (List String)
  | [], index => Except.ok index
  | p :: rest, index =>
    if ok (mkDoc p.1 p.2) then insertTermsF ok rest (index ++ [mkDoc p.1 p.2])
    else Except.error index

/-- The Streamlit session state touched by the upload tab:
`st.session_state["llama_index"]` (as the list of inserted document
contents), `st.session_state["all_terms"]` and `st.session_state["terms"]`. -/
structure AppState where
  llama_index : List String
  all_terms : Dict
  terms : Dict

/-- The "Extract Terms and Definitions" button with raw text input
(lines 159-189): `st.session_state["terms"] = {}`, `terms_docs = {}`,
`terms_docs.update(extract_terms(...))`,
`st.session_state["terms"].update(terms_docs)`.  The LLM answer string is
the parameter. -/
def uploadExtractAction (st : AppState) (answer : String) : AppState :=
  let terms_docs := mergeAggregate [] (extract_terms answer)
  { st with terms := mergeAggregate [] terms_docs }

/-- The "Insert terms?" button (lines 196-202): `insert_terms(terms)`,
`all_terms.update(terms)`, `terms = {}`. -/
def insertTermsAction (st : AppState) : AppState :=
  { llama_index := insert_terms st.terms st.llama_index
    all_terms := mergeAggregate st.all_terms st.terms
    terms := [] }

/-!  Specification-side predicates, written from the spec's words. -/

/-- `Occurs sep s`: `s` contains the literal substring `sep`. -/
def Occurs (sep s : String) : Prop :=
  ∃ a b : String, s.data = a.data ++ sep.data ++ b.data

/-- `IsBeforeFirstSplit sep s p`: `p` is the prefix of `s` before the first
occurrence of `sep` (all of `s` when `sep` does not occur); Python
`s.split(sep)[0]`. -/
def IsBeforeFirstSplit (sep s p : String) : Prop :=
  (¬ Occurs sep s ∧ p = s) ∨
  (∃ q : String, s.data = p.data ++ sep.data ++ q.data ∧ ¬ Occurs sep p)

/-- `IsAfterLastSplit sep s y`: `y` is the suffix of `s` after the last
occurrence of `sep` (all of `s` when `sep` does not occur); Python
`s.split(sep)[-1]`. -/
def IsAfterLastSplit (sep s y : String) : Prop :=
  (¬ Occurs sep s ∧ y = s) ∨
  (∃ z : String, s.data = z.data ++ sep.data ++ y.data ∧ ¬ Occurs sep y)

/-- Modelled from the words of claim C5: term and definition obtained by
splitting on the FIRST occurrence of the respective marker and trimming
(the term from the prefix before the first `"Definition:"`). -/
def specParseFirst (x : String) : String × String :=
  (sTrim (sAfterFirst "Term:" (sBeforeFirst "Definition:" x)),
   sTrim (sAfterFirst "Definition:" x))

/-- Modelled from claim C5 as amended: term and definition obtained by
splitting on the LAST occurrence of the respective marker and trimming
(the term from the prefix before the first `"Definition:"`). -/
def specParseLast (x : String) : String × String :=
  (sTrim (sAfterLast "Term:" (sBeforeFirst "Definition:" x)),
   sTrim (sAfterLast "Definition:" x))

/-!  Lemmas on the character-list operations. -/

theorem isPrefixL_iff (sep l : List Char) :
    isPrefixL sep l = true ↔ ∃ r, l = sep ++ r := by
  induction sep generalizing l with
  | nil => simp [isPrefixL]
  | cons a as ih =>
    cases l with
    | nil => simp [isPrefixL]
    | cons b bs =>
      simp only [isPrefixL, Bool.and_eq_true, beq_iff_eq, ih, List.cons_append,
        List.cons.injEq]
      constructor
      · rintro ⟨rfl, r, rfl⟩; exact ⟨r, rfl, rfl⟩
      · rintro ⟨r, rfl, rfl⟩; exact ⟨rfl, r, rfl⟩

theorem containsSub_iff (sep l : List Char) :
    containsSub sep l = true ↔ ∃ a b, l = a ++ sep ++ b := by
  induction l with
  | nil =>
    simp only [containsSub, isPrefixL_iff]
    constructor
    · rintro ⟨r, h⟩
      exact ⟨[], r, by simpa using h⟩
    · rintro ⟨a, b, h⟩
      have h' : a = [] ∧ sep = [] ∧ b = [] := by
        simpa [List.append_eq_nil] using h.symm
      rcases h' with ⟨rfl, rfl, rfl⟩
      exact ⟨[], rfl⟩
  | cons c cs ih =>
    simp only [containsSub, Bool.or_eq_true, isPrefixL_iff, ih]
    constructor
    · rintro (⟨r, h⟩ | ⟨a, b, h⟩)
      · exact ⟨[], r, by simpa using h⟩
      · exact ⟨c :: a, b, by simp [h]⟩
    · rintro ⟨a, b, h⟩
      cases a with
      | nil => exact Or.inl ⟨b, by simpa using h⟩
      | cons a0 as =>
        simp only [List.cons_append, List.cons.injEq] at h
        exact Or.inr ⟨as, b, h.2⟩

theorem containsSub_append_right (sep a b : List Char)
    (h : containsSub sep b = true) : containsSub sep (a ++ b) = true := by
  rw [containsSub_iff] at h ⊢
  rcases h with ⟨x, y, rfl⟩
  exact ⟨a ++ x, y, by simp⟩

theorem containsSub_drop (sep l : List Char) (n : Nat)
    (h : containsSub sep (l.drop n) = true) : containsSub sep l = true := by
  have := containsSub_append_right sep (l.take n) (l.drop n) h
  simpa [List.take_append_drop] using this

theorem isPrefixL_sep_drop (sep l : List Char) (h : isPrefixL sep l = true) :
    l = sep ++ l.drop sep.length := by
  rcases (isPrefixL_iff sep l).mp h with ⟨r, rfl⟩
  simp [List.drop_left]

/-- `afterLastOpt` specification: `none` means no occurrence; `some r` means
`r` is a suffix after an occurrence of `sep` and `sep` does not occur in
`r` (hence the occurrence is the last one). -/
theorem afterLastOpt_spec (sep : List Char) (hsep : sep ≠ []) (l : List Char) :
    (afterLastOpt sep l = none → containsSub sep l = false) ∧
    (∀ r, afterLastOpt sep l = some r →
      (∃ z, l = z ++ sep ++ r) ∧ containsSub sep r = false) := by
  have hne : sep.isEmpty = false := by
    cases sep with
    | nil => exact absurd rfl hsep
    | cons a as => rfl
  induction l with
  | nil =>
    constructor
    · intro _
      cases sep with
      | nil => exact absurd rfl hsep
      | cons a as => simp [containsSub, isPrefixL]
    · intro r h
      simp [afterLastOpt, hne] at h
  | cons c cs ih =>
    rcases hrec : afterLastOpt sep cs with _ | r0
    · by_cases hpre : isPrefixL sep (c :: cs) = true
      · constructor
        · intro h
          simp [afterLastOpt, hrec, hpre] at h
        · intro r h
          simp only [afterLastOpt, hrec, hpre, if_true, Option.some.injEq] at h
          subst h
          refine ⟨⟨[], by simpa using isPrefixL_sep_drop sep (c :: cs) hpre⟩, ?_⟩
          cases sep with
          | nil => exact absurd rfl hsep
          | cons s0 ss =>
            by_contra hcon
            have hcon1 : containsSub (s0 :: ss)
                (List.drop (s0 :: ss).length (c :: cs)) = true := by
              simpa using hcon
            have hcon2 : containsSub (s0 :: ss) cs = true := by
              refine containsSub_drop _ _ ss.length ?_
              simpa using hcon1
            rw [ih.1 hrec] at hcon2
            simp at hcon2
      · have hpre' : isPrefixL sep (c :: cs) = false := by simpa using hpre
        constructor
        · intro _
          simp [containsSub, hpre', ih.1 hrec]
        · intro r h
          simp [afterLastOpt, hrec, hpre'] at h
    · constructor
      · intro h
        simp [afterLastOpt, hrec] at h
      · intro r h
        simp only [afterLastOpt, hrec, Option.some.injEq] at h
        subst h
        rcases ih.2 _ hrec with ⟨⟨z, hz⟩, hnr⟩
        exact ⟨⟨c :: z, by simp [hz]⟩, hnr⟩

/-- `beforeFirst` specification: the result is the prefix before an
occurrence of `sep`, and `sep` does not occur in the result (hence the
occurrence is the first one); or there is no occurrence at all and the
result is `l` itself. -/
theorem beforeFirst_spec (sep : List Char) (hsep : sep ≠ []) (l : List Char) :
    (containsSub sep l = false ∧ beforeFirst sep l = l) ∨
    (∃ q, l = beforeFirst sep l ++ sep ++ q ∧
      containsSub sep (beforeFirst sep l) = false) := by
  induction l with
  | nil =>
    cases sep with
    | nil => exact absurd rfl hsep
    | cons s0 ss => exact Or.inl ⟨by simp [containsSub, isPrefixL], rfl⟩
  | cons c cs ih =>
    by_cases hpre : isPrefixL sep (c :: cs) = true
    · have hbf : beforeFirst sep (c :: cs) = [] := by
        simp only [beforeFirst, hpre, if_true]
      refine Or.inr ⟨(c :: cs).drop sep.length, ?_, ?_⟩
      · rw [hbf]
        simpa using isPrefixL_sep_drop sep (c :: cs) hpre
      · rw [hbf]
        cases sep with
        | nil => exact absurd rfl hsep
        | cons s0 ss => simp [containsSub, isPrefixL]
    · have hpre' : isPrefixL sep (c :: cs) = false := by simpa using hpre
      have hbf : beforeFirst sep (c :: cs) = c :: beforeFirst sep cs := by
        simp [beforeFirst, hpre']
      rcases ih with ⟨hno, heq⟩ | ⟨q, hq, hno⟩
      · refine Or.inl ⟨?_, by rw [hbf, heq]⟩
        simp [containsSub, hpre', hno]
      · refine Or.inr ⟨q, ?_, ?_⟩
        · rw [hbf]
          simpa using congrArg (c :: ·) hq
        · rw [hbf]
          simp only [containsSub, Bool.or_eq_false_iff]
          refine ⟨?_, hno⟩
          by_contra hcon
          have hp : isPrefixL sep (c :: beforeFirst sep cs) = true := by
            simpa using hcon
          rcases (isPrefixL_iff _ _).mp hp with ⟨r, hr⟩
          have hpc : isPrefixL sep (c :: cs) = true := by
            rw [isPrefixL_iff]
            refine ⟨r ++ (sep ++ q), ?_⟩
            have h2 : c :: cs = (c :: beforeFirst sep cs) ++ (sep ++ q) := by
              simpa [List.append_assoc] using congrArg (c :: ·) hq
            rw [h2, hr]
            simp [List.append_assoc]
          rw [hpre'] at hpc
          simp at hpc

/-!  Lemmas on the dict model. -/

theorem dlookup_dinsert (d : Dict) (k v j : String) :
    dlookup (dinsert d k v) j = if j = k then some v else dlookup d j := by
  induction d with
  | nil =>
    rcases eq_or_ne j k with rfl | h
    · simp [dinsert, dlookup]
    · simp [dinsert, dlookup, h, Ne.symm h]
  | cons p d ih =>
    rcases eq_or_ne p.1 k with hp | hp
    · rcases eq_or_ne j k with rfl | h
      · simp [dinsert, dlookup, hp]
      · simp [dinsert, dlookup, hp, h, Ne.symm h]
    · rcases eq_or_ne p.1 j with hj | hj
      · have hjk : j ≠ k := fun hh => hp (hj.trans hh)
        simp [dinsert, dlookup, hp, hj, hjk]
      · simp [dinsert, dlookup, hp, hj, ih]

theorem dlookup_eq_none_iff (d : Dict) (k : String) :
    dlookup d k = none ↔ k ∉ d.map Prod.fst := by
  induction d with
  | nil => simp [dlookup]
  | cons p d ih =>
    rcases eq_or_ne p.1 k with hp | hp
    · simp [dlookup, hp]
    · simp [dlookup, hp, ih, Ne.symm hp]

theorem dictOf_concat (l : List (String × String)) (p : String × String) :
    dictOf (l ++ [p]) = dinsert (dictOf l) p.1 p.2 := by
  simp [dictOf, List.foldl_append]

theorem dlookup_dictOf (l : List (String × String)) (k : String) :
    dlookup (dictOf l) k =
      ((l.filter fun q => q.1 == k).getLast?).map Prod.snd := by
  induction l using List.reverseRecOn with
  | nil => simp [dictOf, dlookup]
  | append_singleton l p ih =>
    rw [dictOf_concat, dlookup_dinsert]
    rcases eq_or_ne k p.1 with rfl | h
    · simp [List.filter_append]
    · simp [List.filter_append, h, Ne.symm h, ih]

theorem dlookup_dictOf_isSome (l : List (String × String))
    (p : String × String) (hp : p ∈ l) :
    (dlookup (dictOf l) p.1).isSome = true := by
  rw [dlookup_dictOf]
  have hmem : p ∈ l.filter fun q => q.1 == p.1 :=
    List.mem_filter.mpr ⟨hp, by simp⟩
  have hne : (l.filter fun q => q.1 == p.1) ≠ [] :=
    List.ne_nil_of_mem hmem
  have h1 : ((l.filter fun q => q.1 == p.1).getLast?).isSome = true :=
    List.getLast?_isSome.mpr hne
  rw [show ((l.filter fun q => q.1 == p.1).getLast?).map Prod.snd
      = Prod.snd <$> (l.filter fun q => q.1 == p.1).getLast? from rfl,
    Option.isSome_map]
  exact h1

theorem dlookup_mergeAggregate_isSome (incoming : Dict) :
    ∀ (existing : Dict) (k : String),
      (dlookup existing k).isSome = true →
      (dlookup (mergeAggregate existing incoming) k).isSome = true := by
  induction incoming with
  | nil => intro existing k h; exact h
  | cons p i ih =>
    intro existing k h
    have h1 : (dlookup (dinsert existing p.1 p.2) k).isSome = true := by
      rw [dlookup_dinsert]
      rcases eq_or_ne k p.1 with rfl | hk
      · simp
      · simp [hk, h]
    exact ih (dinsert existing p.1 p.2) k h1

theorem mergeAggregate_lookup (incoming : Dict) :
    ∀ (existing : Dict), (incoming.map Prod.fst).Nodup →
      ∀ k, dlookup (mergeAggregate existing incoming) k =
        (dlookup incoming k).or (dlookup existing k) := by
  induction incoming with
  | nil => intro existing _ k; simp [mergeAggregate, dlookup]
  | cons p i ih =>
    intro existing hnd k
    simp only [List.map_cons, List.nodup_cons] at hnd
    have hstep : mergeAggregate existing (p :: i)
        = mergeAggregate (dinsert existing p.1 p.2) i := rfl
    rw [hstep, ih (dinsert existing p.1 p.2) hnd.2 k, dlookup_dinsert]
    rcases eq_or_ne k p.1 with rfl | hk
    · have hni : dlookup i p.1 = none :=
        (dlookup_eq_none_iff i p.1).mpr hnd.1
      simp [dlookup, hni]
    · simp [dlookup, Ne.symm hk, hk]

/-!  Lemmas on `insert_terms`. -/

theorem insert_terms_eq (d : Dict) :
    ∀ index : List String,
      insert_terms d index = index ++ d.map fun p => mkDoc p.1 p.2 := by
  induction d with
  | nil => intro index; simp [insert_terms]
  | cons p d ih =>
    intro index
    have h1 : insert_terms (p :: d) index
        = insert_terms d (index ++ [mkDoc p.1 p.2]) := rfl
    rw [h1, ih]
    simp

theorem insertTermsF_ok (ok : String → Bool) (d : List (String × String)) :
    ∀ (index r : List String), insertTermsF ok d index = Except.ok r →
      r = index ++ d.map fun p => mkDoc p.1 p.2 := by
  induction d with
  | nil =>
    intro index r h
    simp only [insertTermsF, Except.ok.injEq] at h
    simp [h]
  | cons p d ih =>
    intro index r h
    by_cases hok : ok (mkDoc p.1 p.2) = true
    · rw [show insertTermsF ok (p :: d) index
          = insertTermsF ok d (index ++ [mkDoc p.1 p.2]) from by
        simp [insertTermsF, hok]] at h
      rw [ih _ r h]
      simp
    · have hok' : ok (mkDoc p.1 p.2) = false := by simpa using hok
      simp [insertTermsF, hok'] at h

theorem insertTermsF_error (ok : String → Bool) (d : List (String × String)) :
    ∀ (index r : List String), insertTermsF ok d index = Except.error r →
      ∃ dPre p dSuf, d = dPre ++ p :: dSuf ∧ ok (mkDoc p.1 p.2) = false ∧
        (∀ q ∈ dPre, ok (mkDoc q.1 q.2) = true) ∧
        r = index ++ dPre.map fun q => mkDoc q.1 q.2 := by
  induction d with
  | nil =>
    intro index r h
    simp [insertTermsF] at h
  | cons p d ih =>
    intro index r h
    by_cases hok : ok (mkDoc p.1 p.2) = true
    · rw [show insertTermsF ok (p :: d) index
          = insertTermsF ok d (index ++ [mkDoc p.1 p.2]) from by
        simp [insertTermsF, hok]] at h
      rcases ih _ r h with ⟨dPre, p0, dSuf, hd, hf, hpre, hr⟩
      refine ⟨p :: dPre, p0, dSuf, by simp [hd], hf, ?_, by simp [hr]⟩
      intro q hq
      rcases List.mem_cons.mp hq with rfl | hq
      · exact hok
      · exact hpre q hq
    · have hok' : ok (mkDoc p.1 p.2) = false := by simpa using hok
      simp only [insertTermsF, hok', Bool.false_eq_true, if_false,
        Except.error.injEq] at h
      exact ⟨[], p, d, rfl, hok', by simp, by simp [h]⟩

/-!  Bridge between the `Prop`-level spec predicates and the executable
operations. -/

theorem occurs_iff_containsSub (sep s : String) :
    Occurs sep s ↔ containsSub sep.data s.data = true := by
  rw [Occurs, containsSub_iff]
  constructor
  · rintro ⟨a, b, h⟩; exact ⟨a.data, b.data, h⟩
  · rintro ⟨a, b, h⟩; exact ⟨⟨a⟩, ⟨b⟩, h⟩

theorem occurs_ne_empty (sep s : String) (hsep : sep.data ≠ [])
    (h : Occurs sep s) : s ≠ "" := by
  rcases h with ⟨a, b, hd⟩
  intro he
  subst he
  have h0 : a.data ++ sep.data ++ b.data = [] := hd.symm
  rcases List.append_eq_nil.mp h0 with ⟨h1, _⟩
  rcases List.append_eq_nil.mp h1 with ⟨_, h2⟩
  exact hsep h2

theorem sBeforeFirst_split (sep s : String) (hsep : sep.data ≠ []) :
    IsBeforeFirstSplit sep s (sBeforeFirst sep s) := by
  rcases beforeFirst_spec sep.data hsep s.data with ⟨hno, heq⟩ | ⟨q, hq, hno⟩
  · left
    constructor
    · rw [occurs_iff_containsSub, hno]; simp
    · show String.mk (beforeFirst sep.data s.data) = s
      rw [heq]
  · right
    refine ⟨⟨q⟩, hq, ?_⟩
    rw [occurs_iff_containsSub]
    show ¬ containsSub sep.data (beforeFirst sep.data s.data) = true
    rw [hno]; simp

theorem sAfterLast_split (sep s : String) (hsep : sep.data ≠ []) :
    IsAfterLastSplit sep s (sAfterLast sep s) := by
  have hspec := afterLastOpt_spec sep.data hsep s.data
  rcases hal : afterLastOpt sep.data s.data with _ | r
  · left
    constructor
    · rw [occurs_iff_containsSub, hspec.1 hal]; simp
    · show String.mk (afterLast sep.data s.data) = s
      rw [show afterLast sep.data s.data = s.data from by simp [afterLast, hal]]
  · right
    rcases hspec.2 r hal with ⟨⟨z, hz⟩, hnr⟩
    refine ⟨⟨z⟩, ?_, ?_⟩
    · show s.data = z ++ sep.data ++ (sAfterLast sep s).data
      rw [show (sAfterLast sep s).data = r from by simp [sAfterLast, afterLast, hal]]
      exact hz
    · rw [occurs_iff_containsSub]
      show ¬ containsSub sep.data (afterLast sep.data s.data) = true
      rw [show afterLast sep.data s.data = r from by simp [afterLast, hal]]
      rw [hnr]; simp

/-!  Claim theorems. -/

/-- C1: for every retained line of the LLM answer, the extracted term is the
text after the last `"Term:"` in the prefix before the (first) `"Definition:"`,
the extracted definition is the text after the (last) `"Definition:"`,
both trimmed; and `"Term: Foo  Definition: a city"` yields
`("Foo", "a city")`. -/
theorem extract_parse_shape_c1 :
    (∀ answer x, x ∈ retained answer →
      IsBeforeFirstSplit "Definition:" x (sBeforeFirst "Definition:" x) ∧
      IsAfterLastSplit "Term:" (sBeforeFirst "Definition:" x)
        (sAfterLast "Term:" (sBeforeFirst "Definition:" x)) ∧
      IsAfterLastSplit "Definition:" x (sAfterLast "Definition:" x) ∧
      parseTermOf x
        = sTrim (sAfterLast "Term:" (sBeforeFirst "Definition:" x)) ∧
      parseDefOf x = sTrim (sAfterLast "Definition:" x)) ∧
    extract_terms "Term: Foo  Definition: a city" = [("Foo", "a city")] := by
  refine ⟨?_, by decide⟩
  intro answer x _
  exact ⟨sBeforeFirst_split _ _ (by decide),
    sAfterLast_split _ _ (by decide),
    sAfterLast_split _ _ (by decide), rfl, rfl⟩

/-- Witness for C1 at the line `"Term: Foo  Definition: a city"`. -/
theorem extract_parse_shape_c1_witness :
    IsBeforeFirstSplit "Definition:" "Term: Foo  Definition: a city"
      (sBeforeFirst "Definition:" "Term: Foo  Definition: a city") ∧
    IsAfterLastSplit "Term:"
      (sBeforeFirst "Definition:" "Term: Foo  Definition: a city")
      (sAfterLast "Term:"
        (sBeforeFirst "Definition:" "Term: Foo  Definition: a city")) ∧
    IsAfterLastSplit "Definition:" "Term: Foo  Definition: a city"
      (sAfterLast "Definition:" "Term: Foo  Definition: a city") ∧
    parseTermOf "Term: Foo  Definition: a city"
      = sTrim (sAfterLast "Term:"
          (sBeforeFirst "Definition:" "Term: Foo  Definition: a city")) ∧
    parseDefOf "Term: Foo  Definition: a city"
      = sTrim (sAfterLast "Definition:" "Term: Foo  Definition: a city") :=
  extract_parse_shape_c1.1 "Term: Foo  Definition: a city"
    "Term: Foo  Definition: a city" (by decide)

/-- C2: a line of the answer is retained (and so contributes an entry to the
extraction) if and only if it contains both literal markers `"Term:"` and
`"Definition:"`; nothing is raised for other lines. -/
theorem retained_iff_markers_c2 (answer x : String) (hx : x ∈ sLines answer) :
    x ∈ retained answer ↔ Occurs "Term:" x ∧ Occurs "Definition:" x := by
  rw [occurs_iff_containsSub, occurs_iff_containsSub]
  constructor
  · intro hr
    have hr' : x ∈ (sLines answer).filter fun y =>
        y != "" && sContains "Term:" y && sContains "Definition:" y := hr
    have h2 := (List.mem_filter.mp hr').2
    simp only [Bool.and_eq_true] at h2
    exact ⟨h2.1.2, h2.2⟩
  · rintro ⟨h1, h2⟩
    have hne : x ≠ "" := by
      apply occurs_ne_empty "Term:" x (by decide)
      rw [occurs_iff_containsSub]
      exact h1
    show x ∈ (sLines answer).filter fun y =>
      y != "" && sContains "Term:" y && sContains "Definition:" y
    refine List.mem_filter.mpr ⟨hx, ?_⟩
    simp only [Bool.and_eq_true, bne_iff_ne]
    exact ⟨⟨hne, h1⟩, h2⟩

/-- Witness for C2 at a one-line answer containing both markers. -/
theorem retained_iff_markers_c2_witness :
    "Term: A Definition: B" ∈ retained "Term: A Definition: B" ↔
      Occurs "Term:" "Term: A Definition: B" ∧
      Occurs "Definition:" "Term: A Definition: B" :=
  retained_iff_markers_c2 "Term: A Definition: B" "Term: A Definition: B"
    (by decide)

/-- C3: an answer none of whose lines contains both markers produces the
empty mapping (and no error). -/
theorem extract_empty_on_no_markers_c3 (answer : String)
    (h : ∀ x ∈ sLines answer,
      ¬ (sContains "Term:" x = true ∧ sContains "Definition:" x = true)) :
    extract_terms answer = [] := by
  have hret : retained answer = [] := by
    apply List.filter_eq_nil_iff.mpr
    intro x hx hb
    simp only [Bool.and_eq_true] at hb
    exact h x hx ⟨hb.1.2, hb.2⟩
  show dictOf ((retained answer).map parsePair) = []
  rw [hret]
  rfl

/-- Witness for C3 at a two-line answer with no marker pair. -/
theorem extract_empty_on_no_markers_c3_witness :
    extract_terms "hello world\nTerm: no def here" = [] :=
  extract_empty_on_no_markers_c3 "hello world\nTerm: no def here" (by decide)

/-- C4: the mapping maps a term to the definition parsed from the last
retained line that yields this term (later lines overwrite earlier ones). -/
theorem extract_last_line_wins_c4 (answer t : String) :
    dlookup (extract_terms answer) t
      = (((retained answer).filter fun x => parseTermOf x == t).getLast?).map
          parseDefOf := by
  have h0 := dlookup_dictOf ((retained answer).map parsePair) t
  rw [List.filter_map, List.getLast?_map, Option.map_map] at h0
  exact h0

/-- C5 counterexample: on a line with two `"Term:"` and two `"Definition:"`
markers the code takes the last occurrences, not the first ones as the claim
states. -/
theorem parse_first_occurrence_c5_counterexample :
    extract_terms "Term: A Term: B Definition: x Definition: y"
      = [("B", "y")] ∧
    specParseFirst "Term: A Term: B Definition: x Definition: y"
      = ("A Term: B", "x Definition: y") ∧
    parsePair "Term: A Term: B Definition: x Definition: y"
      ≠ specParseFirst "Term: A Term: B Definition: x Definition: y" :=
  ⟨by decide, by decide, by decide⟩

/-- C5 as amended: term and definition are derived by splitting on the LAST
occurrence of the respective marker (the term inside the prefix before the
first `"Definition:"`) and trimming whitespace. -/
theorem parse_last_occurrence_c5_amended (x : String) :
    parsePair x = specParseLast x := rfl

/-- C6: the merge used by the upload tab is the union of the two mappings
with `incoming` winning on key collisions, and
`mergeAggregate {"A":"1"} {"A":"2","B":"3"} = {"A":"2","B":"3"}`. -/
theorem mergeAggregate_union_c6 :
    (∀ existing incoming : Dict, (incoming.map Prod.fst).Nodup →
      ∀ k, dlookup (mergeAggregate existing incoming) k
        = (dlookup incoming k).or (dlookup existing k)) ∧
    mergeAggregate [("A", "1")] [("A", "2"), ("B", "3")]
      = [("A", "2"), ("B", "3")] := by
  refine ⟨?_, by decide⟩
  intro existing incoming h k
  exact mergeAggregate_lookup incoming existing h k

/-- Witness for C6 at the claim's own example. -/
theorem mergeAggregate_union_c6_witness :
    dlookup (mergeAggregate [("A", "1")] [("A", "2"), ("B", "3")]) "A"
      = (dlookup [("A", "2"), ("B", "3")] "A").or (dlookup [("A", "1")] "A") :=
  mergeAggregate_union_c6.1 [("A", "1")] [("A", "2"), ("B", "3")]
    (by decide) "A"

/-- C7: `insert_terms` inserts exactly one document per pair, in mapping
order, with content exactly `"Term: {term}\nDefinition: {definition}"`; with
a fallible collaborator, a failure keeps all earlier insertions (no
batching, no rollback). -/
theorem insert_terms_c7 (d : Dict) (index : List String) :
    insert_terms d index = index ++ d.map (fun p => mkDoc p.1 p.2) ∧
    (∀ ok r, insertTermsF ok d index = Except.ok r →
      r = index ++ d.map fun p => mkDoc p.1 p.2) ∧
    (∀ ok r, insertTermsF ok d index = Except.error r →
      ∃ dPre p dSuf, d = dPre ++ p :: dSuf ∧ ok (mkDoc p.1 p.2) = false ∧
        (∀ q ∈ dPre, ok (mkDoc q.1 q.2) = true) ∧
        r = index ++ dPre.map fun q => mkDoc q.1 q.2) :=
  ⟨insert_terms_eq d index,
   fun ok r h => insertTermsF_ok ok d index r h,
   fun ok r h => insertTermsF_error ok d index r h⟩

/-- Witness for C7: a failing first insertion leaves the index as it was. -/
theorem insert_terms_c7_witness :
    ∃ dPre p dSuf,
      [(("A" : String), ("1" : String))] = dPre ++ p :: dSuf ∧
      (fun _ : String => false) (mkDoc p.1 p.2) = false ∧
      (∀ q ∈ dPre, (fun _ : String => false) (mkDoc q.1 q.2) = true) ∧
      ["z"] = ["z"] ++ dPre.map fun q => mkDoc q.1 q.2 :=
  (insert_terms_c7 [("A", "1")] ["z"]).2.2 (fun _ => false) ["z"] rfl

/-- C8: the aggregate term set never shrinks under the merge of the
"Insert terms?" action: every key of `all_terms` before is still a key
after. -/
theorem aggregate_never_shrinks_c8 (st : AppState) (k : String)
    (h : (dlookup st.all_terms k).isSome = true) :
    (dlookup (insertTermsAction st).all_terms k).isSome = true := by
  show (dlookup (mergeAggregate st.all_terms st.terms) k).isSome = true
  exact dlookup_mergeAggregate_isSome st.terms st.all_terms k h

/-- Witness for C8 at a concrete state. -/
theorem aggregate_never_shrinks_c8_witness :
    (dlookup (insertTermsAction
        { llama_index := [], all_terms := [("New York City", "a city")],
          terms := [("A", "1")] }).all_terms "New York City").isSome = true :=
  aggregate_never_shrinks_c8
    { llama_index := [], all_terms := [("New York City", "a city")],
      terms := [("A", "1")] } "New York City" (by decide)

/-- C9: the extract step only fills `session_state["terms"]` with the parsed
result; the persistent index and the aggregate mapping are unchanged. -/
theorem extract_no_state_mutation_c9 (st : AppState) (answer : String) :
    (uploadExtractAction st answer).llama_index = st.llama_index ∧
    (uploadExtractAction st answer).all_terms = st.all_terms :=
  ⟨rfl, rfl⟩

/-- C10: empty term keys are retained: a retained line whose term-bearing
prefix trims to `""` contributes an entry with key `""`, and
`"Term:Definition: x"` extracts to `{"": "x"}`. -/
theorem empty_term_key_kept_c10 :
    (∀ answer x, x ∈ retained answer → parseTermOf x = "" →
      (dlookup (extract_terms answer) "").isSome = true) ∧
    extract_terms "Term:Definition: x" = [("", "x")] := by
  refine ⟨?_, by decide⟩
  intro answer x hx ht
  have hmem : parsePair x ∈ (retained answer).map parsePair :=
    List.mem_map_of_mem parsePair hx
  have h1 := dlookup_dictOf_isSome _ _ hmem
  rw [show (parsePair x).1 = parseTermOf x from rfl, ht] at h1
  exact h1

/-- Witness for C10 at the answer `"Term:Definition: x"`. -/
theorem empty_term_key_kept_c10_witness :
    (dlookup (extract_terms "Term:Definition: x") "").isSome = true :=
  empty_term_key_kept_c10.1 "Term:Definition: x" "Term:Definition: x"
    (by decide) (by decide)

end StreamlitDemo
